import Mathlib

/-!
# ccgen — verification of the option-expansion core

Shallow embedding of `src/ccgen.c` (the `ccgen` universal compiler
frontend).  The combinatorial core (`doTheJob`), the option-spec parser
(the `-o` branch of `parse_input`), the command/filename builders and the
bounded writer `str_write` are translated into executable Lean
definitions; libc collaborators (the `getopt` lexing of `argv`, the
`system(3)` backend call) are abstracted as parameters, exactly at the
interfaces the C code uses them.

Machine integers in the C code (`int` indices, `size_t` capacities) never
overflow on the paths modelled here, so they are embedded as `Nat`.
-/

namespace Ccgen

/-- The C string terminator character, written into the buffer model. -/
def nulChar : Char := Char.ofNat 0

/-- `EXIT_SUCCESS`. -/
def EXIT_SUCCESS : Nat := 0

/-- `EXIT_FAILURE` as a process exit status (nonzero). -/
def EXIT_FAILURE : Nat := 1

/-- `static const char * const ccgen_version = "1.0"`. -/
def ccgen_version : String := "1.0"

/-- `struct option_value`: one alternative for an option.  `fname` is
always assigned by the parser when the entry is created; `iname` stays
`NULL` (here `none`) when the spec string supplies no informal name. -/
structure OptionValue where
  fname : String
  iname : Option String
deriving Repr, DecidableEq

/-- `struct option`: one configurable axis, an ordered sequence of
values (the C array `opt_val[0 .. val_cnt-1]`). -/
structure COption where
  values : List OptionValue
deriving Repr, DecidableEq

/-- The run-global scalar configuration: the global variables
`backend`, `outfile_base`, `extension`, `logfile` and the parsed
`passed_options` of `ccgen.c`, with their C initial values as defaults. -/
structure Config where
  backend : String := "cc"
  outfile_base : Option String := none
  extension : Option String := none
  logfile : Option String := none
  options : List COption := []
deriving Repr, DecidableEq

/-! ## Expansion engine: the selection tuples visited by `doTheJob`

`doTheJob` recurses over the option index, writing the chosen value
index into the global `cur_set` before each recursive call:

    for (j = 0; j < passed_options[opt].val_cnt; ++j)
      { cur_set[opt] = j; doTheJob(opt + 1); }

State-passing translation: `combos counts` is the list of complete
`cur_set` tuples in the order the leaves of the recursion are reached,
for options whose value counts are `counts`. -/
def combos : List Nat → List (List Nat)
  | [] => [[]]
  | c :: cs => (List.range c).flatMap (fun j => (combos cs).map (fun t => j :: t))

/-- A selection tuple is valid for value counts `counts` when it picks
one in-range index per axis. -/
def validTuple (counts : List Nat) (t : List Nat) : Prop :=
  t.length = counts.length ∧ ∀ i : Nat, ∀ h : i < t.length,
    t.get ⟨i, h⟩ < counts.getD i 0

instance validTuple.decidable (counts t : List Nat) :
    Decidable (validTuple counts t) := by
  unfold validTuple
  exact inferInstance

/-- The mixed-radix rank of a tuple: axis 0 is the most significant
digit.  `mrIndex counts t` is the position at which `t` must appear if
axis 0 varies slowest and the last axis varies fastest. -/
def mrIndex : List Nat → List Nat → Nat
  | _, [] => 0
  | counts, j :: t => j * counts.tail.prod + mrIndex counts.tail t

/-! ## Specification parser: the `-o` branch of `parse_input`

    for (i = 0; *subopts != '\0'; ++i)
      {
        getsubopt(&subopts, &just_null, &value);
        if (i % 2)
          cur -> opt_val[cur -> val_cnt-1].iname = value;
        else
          cur -> opt_val[cur -> val_cnt++].fname = value;
      }

`getsubopt` is called with an empty token table, so every field is
"unrecognised": `value` is the text up to the next comma, and the comma,
when present, is consumed.  The loop re-tests `*subopts != '\0'` after
the comma, so a trailing comma ends the loop without a further field. -/

/-- The C assignment `cur->opt_val[cur->val_cnt-1].iname = value`.
`acc` holds the values created so far in reverse creation order, so the
most recent one is at the head.  (`acc` is never empty when this runs:
an odd field index implies an earlier even field pushed a value.) -/
def setIname (acc : List OptionValue) (v : String) : List OptionValue :=
  match acc with
  | [] => []
  | w :: ws => { w with iname := some v } :: ws

/-- The `getsubopt` loop of the `-o` case, as state-passing recursion:
`cs` is the rest of `optarg`, `i` the field index, `acc` the values
created so far (reversed). -/
def parseGo (cs : List Char) (i : Nat) (acc : List OptionValue) :
    List OptionValue :=
  if cs = [] then acc.reverse
  else
    let field := String.mk (cs.takeWhile (fun c => c != ','))
    let rest := (cs.dropWhile (fun c => c != ',')).tail
    parseGo rest (i + 1)
      (if i % 2 = 1 then setIname acc field else ⟨field, none⟩ :: acc)
termination_by cs.length
decreasing_by
  have h1 : (cs.takeWhile (fun c => c != ',')).length
      + (cs.dropWhile (fun c => c != ',')).length = cs.length := by
    rw [← List.length_append, List.takeWhile_append_dropWhile]
  have h2 : ((cs.dropWhile (fun c => c != ',')).tail).length
      = (cs.dropWhile (fun c => c != ',')).length - 1 := List.length_tail _
  have h3 : 0 < cs.length := List.length_pos.mpr (by assumption)
  omega

/-- The option appended to `passed_options` by one `-o OPTARG`
occurrence (an empty `optarg` leaves `val_cnt == 0`). -/
def parseOptionSpec (raw : String) : COption :=
  ⟨parseGo raw.data 0 []⟩

/-- Modelled from the spec's words (§4.1): split a raw string on commas
into an ordered field sequence (`k` commas always yield `k + 1`
fields). -/
def splitOnComma : List Char → List (List Char)
  | [] => [[]]
  | c :: cs =>
    if c = ',' then [] :: splitOnComma cs
    else
      match splitOnComma cs with
      | [] => [[c]]
      | f :: fs => (c :: f) :: fs

/-- Modelled from the spec's words (§4.1): consume a field sequence two
fields at a time; field `2k` is the formal name of value `k` and field
`2k + 1`, if present, its informal name; with an odd number of fields
the last value gets no informal name. -/
def pairFields : List String → List OptionValue
  | [] => []
  | [f] => [⟨f, none⟩]
  | f :: i :: rest => ⟨f, some i⟩ :: pairFields rest

/-- Drop a final empty field from a field sequence.  This is the exact
discrepancy between a plain comma split and the `getsubopt` loop: after
a trailing comma the loop sees the empty rest and stops. -/
def dropTrailingNil (l : List (List Char)) : List (List Char) :=
  if l.getLast? = some [] then l.dropLast else l

/-- The pairing loop over an explicit field list, with the same
index-parity state as `parseGo`. -/
def pairGo : List String → Nat → List OptionValue → List OptionValue
  | [], _, acc => acc.reverse
  | f :: fs, i, acc =>
    pairGo fs (i + 1) (if i % 2 = 1 then setIname acc f else ⟨f, none⟩ :: acc)

/-! ## Command builder: the leaf of `doTheJob`

At a leaf (`opt == option_count`) the C code appends, via `str_write`:
the backend name into `cmd_buf`; the base name into `file_buf` (when
set); per axis `" %s"` with the selected `fname` when non-empty into
`cmd_buf` and `"_%s"` with the selected `iname` when non-`NULL` and
non-empty into `file_buf`; then `".%s"` with the extension and
`" -o %s"` with `file_buf` (when the base is set); then `" %s"` per
positional argument.  The builders below are the successful
(no-overflow) contents of the two buffers; the capacity checks of
`str_write` are modelled separately. -/

/-- Concatenation of rendered pieces. -/
def strConcat (l : List String) : String := l.foldr (fun a b => a ++ b) ""

/-- The informal name the C code reads through a possibly-`NULL`
pointer: missing and empty behave alike downstream. -/
def inameStr (v : OptionValue) : String :=
  match v.iname with
  | none => ""
  | some s => s

/-- The C guard `cur_val->iname && strlen(cur_val->iname)`. -/
def inameNonempty (v : OptionValue) : Bool :=
  match v.iname with
  | none => false
  | some s => s.length != 0

/-- The output filename formed in `file_buf` for the selected values
`sel`; meaningful only when `outfile_base` is set (otherwise `file_buf`
stays empty and unused). -/
def buildFile (cfg : Config) (sel : List OptionValue) : String :=
  match cfg.outfile_base with
  | none => ""
  | some base =>
    base
      ++ strConcat (sel.map (fun v =>
          if inameNonempty v then "_" ++ inameStr v else ""))
      ++ (match cfg.extension with
          | some e => "." ++ e
          | none => "")

/-- The command line formed in `cmd_buf` for the selected values `sel`
and the positional arguments `args`. -/
def buildCmd (cfg : Config) (sel : List OptionValue) (args : List String) :
    String :=
  cfg.backend
    ++ strConcat (sel.map (fun v =>
        if v.fname.length != 0 then " " ++ v.fname else ""))
    ++ (match cfg.outfile_base with
        | some _ => " -o " ++ buildFile cfg sel
        | none => "")
    ++ strConcat (args.map (fun a => " " ++ a))

/-- Modelled from the spec's words (§4.3): the command-line pieces in
order — backend, the non-empty formal names in axis order, `-o` and the
filename when a base name is configured, then the positional
arguments. -/
def cmdTokens (cfg : Config) (sel : List OptionValue) (args : List String) :
    List String :=
  [cfg.backend]
    ++ (sel.map (fun v => v.fname)).filter (fun s => s != "")
    ++ (match cfg.outfile_base with
        | some _ => ["-o", buildFile cfg sel]
        | none => [])
    ++ args

/-- Modelled from the spec's words (§4.3): join pieces with exactly one
space between consecutive pieces. -/
def joinSpaced : List String → String
  | [] => ""
  | [s] => s
  | s :: rest => s ++ " " ++ joinSpaced rest

/-- Modelled from the spec's words (§4.3, filename): one
underscore-prefixed segment per non-empty informal name, in axis
order. -/
def fileSegments (sel : List OptionValue) : List String :=
  ((sel.map inameStr).filter (fun s => s != "")).map (fun i => "_" ++ i)

/-! ## `doTheJob` and the backend collaborator -/

/-- What the C code reads at a leaf:
`passed_options[i].opt_val[cur_set[i]]` for each axis `i`. -/
def selectVals (opts : List COption) (t : List Nat) : List OptionValue :=
  (opts.zip t).map (fun p => p.1.values.getD p.2 ⟨"", none⟩)

/-- `doTheJob`, with the values chosen so far accumulated in place of
the global `cur_set` array: the rendered command line of every leaf, in
recursion order (axis values iterated `j = 0, 1, ...` per axis). -/
def doTheJob (cfg : Config) (args : List String) :
    List COption → List OptionValue → List String
  | [], acc => [buildCmd cfg acc args]
  | o :: rest, acc =>
    o.values.flatMap (fun v => doTheJob cfg args rest (acc ++ [v]))

/-- Observable events of the run: a `printf` line, or handing a command
to `call_backend`. -/
inductive Event
  | log (line : String)
  | invoke (cmd : String)
deriving Repr, DecidableEq

/-- `true` exactly on backend invocations. -/
def Event.isInvoke : Event → Bool
  | Event.invoke _ => true
  | _ => false

/-- `doTheJob` with the backend collaborator threaded through.  At a
leaf: `printf("Executing... %s\n", cmd_buf); call_backend(cmd_buf);`.
The backend is `system(3)`: a state transformer returning an exit
status, which the C code discards (`call_backend`'s result is unused).
Returns the event trace in execution order and the final collaborator
state. -/
def runCombos {σ : Type} (cfg : Config) (args : List String)
    (backend : String → σ → Int × σ) :
    List COption → List OptionValue → σ → List Event × σ
  | [], acc, s =>
    let cmd := buildCmd cfg acc args
    let r := backend cmd s
    ([Event.log ("Executing... " ++ cmd), Event.invoke cmd], r.2)
  | o :: rest, acc, s =>
    o.values.foldl (fun (p : List Event × σ) v =>
      let q := runCombos cfg args backend rest (acc ++ [v]) p.2
      (p.1 ++ q.1, q.2)) ([], s)

/-! ## CLI plumbing interface: `main` and `parse_input` -/

/-- `print_help`: the text of the two `printf` calls. -/
def helpText (prog : String) : String :=
  "Usage: " ++ prog ++ " [options]... file...\n"
    ++ "Options:\n"
    ++ "-l <log_file>\t\t\tSend all output to <log_file>.\n"
    ++ "-x <backend>\t\t\tBackend name.\n"
    ++ "-o <option_spec>\t\tOption specification.\n"
    ++ "-b <base_file>\t\t\tOutput file base name.\n"
    ++ "-h\t\t\t\tDisplay this help.\n"
    ++ "-v\t\t\t\tDisplay version information\n"

/-- One result of the `getopt` loop, per iteration of `parse_input`'s
`switch`.  `getopt(3)` itself is libc plumbing: its lexing of `argv`
(option clustering, attached operands, argument permutation, `--`) is
outside the embedded core, which consumes only this stream plus the
positional arguments remaining after `optind`. -/
inductive GetoptEv
  | flagV
  | flagH
  | flagB (arg : String)
  | flagX (arg : String)
  | flagL (arg : String)
  | flagE (arg : String)
  | flagO (arg : String)
  | unknownOpt (c : Char)
  | missingOperand (c : Char)
deriving Repr, DecidableEq

/-- Events on which `parse_input`'s `switch` does not exit the
process. -/
def GetoptEv.nonExiting : GetoptEv → Bool
  | GetoptEv.flagB _ => true
  | GetoptEv.flagX _ => true
  | GetoptEv.flagL _ => true
  | GetoptEv.flagE _ => true
  | GetoptEv.flagO _ => true
  | _ => false

/-- The operand of a `-b` occurrence, `none` for other events. -/
def bArg : GetoptEv → Option String
  | GetoptEv.flagB a => some a
  | _ => none

/-- The operand of a `-x` occurrence, `none` for other events. -/
def xArg : GetoptEv → Option String
  | GetoptEv.flagX a => some a
  | _ => none

/-- The operand of a `-l` occurrence, `none` for other events. -/
def lArg : GetoptEv → Option String
  | GetoptEv.flagL a => some a
  | _ => none

/-- The operand of a `-e` occurrence, `none` for other events. -/
def eArg : GetoptEv → Option String
  | GetoptEv.flagE a => some a
  | _ => none

/-- Outcome of `parse_input`: the process exited during parsing (help,
version, or a CLI error through `error_exit`), or parsing finished with
the final configuration. -/
inductive ParseResult
  | exited (output : String) (code : Nat)
  | parsed (cfg : Config)
deriving Repr, DecidableEq

/-- The `switch` of `parse_input`, folded over the `getopt` result
stream.  `-v` and `-h` print and `exit(EXIT_SUCCESS)`; `?` and `:`
reach `error_exit` (message to stderr, `exit(EXIT_FAILURE)`); the five
operand flags update the globals, `-o` appending one parsed option. -/
def parse_input (prog : String) : Config → List GetoptEv → ParseResult
  | cfg, [] => ParseResult.parsed cfg
  | cfg, e :: es =>
    match e with
    | GetoptEv.flagV =>
      ParseResult.exited ("ccgen " ++ ccgen_version ++ "\n") EXIT_SUCCESS
    | GetoptEv.flagH => ParseResult.exited (helpText prog) EXIT_SUCCESS
    | GetoptEv.flagB a => parse_input prog { cfg with outfile_base := some a } es
    | GetoptEv.flagX a => parse_input prog { cfg with backend := a } es
    | GetoptEv.flagL a => parse_input prog { cfg with logfile := some a } es
    | GetoptEv.flagE a => parse_input prog { cfg with extension := some a } es
    | GetoptEv.flagO a =>
      parse_input prog { cfg with options := cfg.options ++ [parseOptionSpec a] } es
    | GetoptEv.unknownOpt c =>
      ParseResult.exited ("Unrecognized `-" ++ String.mk [c] ++ "' option\n")
        EXIT_FAILURE
    | GetoptEv.missingOperand c =>
      ParseResult.exited ("Missing operand for `-" ++ String.mk [c] ++ "' option\n")
        EXIT_FAILURE

/-- `main`: the `argc < 2` help-and-fail path, then `parse_input`, then
`doTheJob(0)` and `exit(EXIT_SUCCESS)`.  `argv` is the command line
after the program name; `events` and `posArgs` are what the libc
`getopt` loop yields from it (plumbing parameters).  The `freopen` log
redirection only retargets the output streams and is not modelled;
the buffer-capacity checks of `str_write` are modelled separately. -/
def ccgenMain {σ : Type} (prog : String) (argv : List String)
    (events : List GetoptEv) (posArgs : List String)
    (backend : String → σ → Int × σ) (s : σ) : List Event × Nat × σ :=
  if argv.isEmpty then
    ([Event.log (helpText prog)], EXIT_FAILURE, s)
  else
    match parse_input prog {} events with
    | ParseResult.exited out code => ([Event.log out], code, s)
    | ParseResult.parsed cfg =>
      let r := runCombos cfg posArgs backend cfg.options [] s
      (r.1, EXIT_SUCCESS, r.2)

/-! ## `str_write`: bounded formatted append -/

/-- Overwrite `buf` starting at byte `pos` with `w`. -/
def overwrite (buf : List Char) (pos : Nat) (w : List Char) : List Char :=
  buf.take pos ++ w ++ buf.drop (pos + w.length)

/-- `vsnprintf(str + ind, n, ...)` when the full formatted text is `s`:
for `n > 0` it writes the first `min |s| (n-1)` characters plus a
terminating `NUL` (never more than `n` bytes), and returns `|s|`, the
length the untruncated text would have had. -/
def vsnprintfModel (buf : List Char) (ind n : Nat) (s : List Char) :
    List Char × Nat :=
  if n = 0 then (buf, s.length)
  else (overwrite buf ind (s.take (n - 1) ++ [nulChar]), s.length)

/-- `str_write(str, ind, n, fmt...)`: the bounded write, then
`error_exit("Attempt to buffer overflow encountered")` when
`ch_cnt >= n` (the text was truncated), else `*ind` advances by
`ch_cnt`, onto the written terminator. -/
def str_write (buf : List Char) (ind n : Nat) (s : List Char) :
    Except String (List Char × Nat) :=
  let r := vsnprintfModel buf ind n s
  if r.2 ≥ n then Except.error ("Attempt to buffer overflow encountered")
  else Except.ok (r.1, ind + r.2)

/-- A command line giving each scalar flag twice. -/
def twiceScalars : List GetoptEv :=
  [GetoptEv.flagB "b1", GetoptEv.flagX "x1", GetoptEv.flagB "b2",
    GetoptEv.flagX "x2", GetoptEv.flagE "e1", GetoptEv.flagE "e2",
    GetoptEv.flagL "l1", GetoptEv.flagL "l2"]

/-- The configuration holding only the second operand of each flag. -/
def lastWinsConfig : Config :=
  { backend := "x2", outfile_base := some "b2", extension := some "e2",
    logfile := some "l2" }

/-! ## Lemmas and claim theorems -/

theorem validTuple_nil (t : List Nat) : validTuple [] t ↔ t = [] := by
  constructor
  · rintro ⟨hlen, _⟩
    exact List.eq_nil_of_length_eq_zero hlen
  · rintro rfl
    exact ⟨rfl, by intro i h; exact absurd h (by simp)⟩

theorem validTuple_cons {c : Nat} {cs : List Nat} {j : Nat} {t : List Nat} :
    validTuple (c :: cs) (j :: t) ↔ j < c ∧ validTuple cs t := by
  constructor
  · rintro ⟨hlen, hb⟩
    refine ⟨by simpa using hb 0 (by simp), by simpa using hlen, ?_⟩
    intro i hi
    have := hb (i + 1) (by simpa using Nat.succ_lt_succ hi)
    simpa using this
  · rintro ⟨hj, hlen, hb⟩
    refine ⟨by simpa using hlen, ?_⟩
    intro i hi
    cases i with
    | zero => simpa using hj
    | succ k =>
      have hk : k < t.length := by simpa using hi
      simpa using hb k hk

theorem combos_length (counts : List Nat) :
    (combos counts).length = counts.prod := by
  induction counts with
  | nil => rfl
  | cons c cs ih =>
    rw [combos, List.length_flatMap]
    simp [Function.comp_def, ih, List.map_const', List.sum_replicate, smul_eq_mul,
      Nat.mul_comm]

theorem mem_combos_iff (counts t : List Nat) :
    t ∈ combos counts ↔ validTuple counts t := by
  induction counts generalizing t with
  | nil =>
    simp only [combos, List.mem_singleton, validTuple_nil]
  | cons c cs ih =>
    simp only [combos, List.mem_flatMap, List.mem_map, List.mem_range]
    constructor
    · rintro ⟨j, hj, t', ht', rfl⟩
      exact validTuple_cons.mpr ⟨hj, (ih t').mp ht'⟩
    · intro hv
      cases t with
      | nil => exact absurd hv.1 (by simp)
      | cons j t' =>
        obtain ⟨hj, hv'⟩ := validTuple_cons.mp hv
        exact ⟨j, hj, t', (ih t').mpr hv', rfl⟩

theorem combos_nodup (counts : List Nat) : (combos counts).Nodup := by
  induction counts with
  | nil => simp [combos]
  | cons c cs ih =>
    rw [combos, List.nodup_flatMap]
    constructor
    · intro j _
      exact List.Nodup.map List.cons_injective ih
    · refine List.Pairwise.imp ?_ (List.nodup_range c)
      intro a b hab
      intro x hxa hxb
      simp only [List.mem_map] at hxa hxb
      obtain ⟨t1, _, rfl⟩ := hxa
      obtain ⟨t2, _, h2⟩ := hxb
      exact hab (by injection h2.symm)

theorem mrIndex_lt {counts t : List Nat} (h : validTuple counts t) :
    mrIndex counts t < counts.prod := by
  induction counts generalizing t with
  | nil =>
    have ht : t = [] := (validTuple_nil t).mp h
    subst ht
    simp [mrIndex]
  | cons c cs ih =>
    cases t with
    | nil => exact absurd h.1 (by simp)
    | cons j t' =>
      obtain ⟨hj, hv⟩ := validTuple_cons.mp h
      have hmr := ih hv
      simp only [mrIndex, List.tail_cons, List.prod_cons]
      calc j * cs.prod + mrIndex cs t' < j * cs.prod + cs.prod := by omega
        _ = (j + 1) * cs.prod := by ring
        _ ≤ c * cs.prod := Nat.mul_le_mul_right cs.prod (by omega)

/-- Indexing into the concatenation of `c` constant-length blocks. -/
theorem bind_range_get {β : Type} (f : Nat → List β) (L c j i : Nat)
    (hf : ∀ m, (f m).length = L) (hj : j < c) (hi : i < L) :
    ((List.range c).flatMap f).get? (j * L + i) = (f j).get? i := by
  induction j generalizing c f with
  | zero =>
    cases c with
    | zero => omega
    | succ k =>
      rw [List.range_succ_eq_map, List.flatMap_cons]
      rw [Nat.zero_mul, Nat.zero_add]
      exact List.get?_append (by rw [hf]; exact hi)
  | succ j ih =>
    cases c with
    | zero => omega
    | succ k =>
      rw [List.range_succ_eq_map, List.flatMap_cons]
      have hlen0 : (f 0).length = L := hf 0
      have hpos : (f 0).length ≤ (j + 1) * L + i := by
        rw [hlen0, Nat.succ_mul]
        omega
      rw [List.get?_append_right hpos]
      have harith : (j + 1) * L + i - (f 0).length = j * L + i := by
        rw [hlen0, Nat.succ_mul]
        omega
      rw [harith]
      have hmapbind : ((List.range k).map Nat.succ).flatMap f
          = (List.range k).flatMap (fun m => f (Nat.succ m)) := by
        rw [List.flatMap_map]
      rw [hmapbind]
      exact ih (fun m => f (Nat.succ m)) k (fun m => hf (Nat.succ m)) (by omega)

/-- Each valid tuple appears in `combos` exactly at its mixed-radix
rank: axis `0` varies slowest, the last axis varies fastest. -/
theorem combos_get_mrIndex {counts t : List Nat} (h : validTuple counts t) :
    (combos counts).get? (mrIndex counts t) = some t := by
  induction counts generalizing t with
  | nil =>
    have ht : t = [] := (validTuple_nil t).mp h
    subst ht
    rfl
  | cons c cs ih =>
    cases t with
    | nil => exact absurd h.1 (by simp)
    | cons j t' =>
      obtain ⟨hj, hv⟩ := validTuple_cons.mp h
      simp only [mrIndex, List.tail_cons, List.prod_cons, combos]
      rw [bind_range_get (fun j => (combos cs).map (fun t => j :: t)) cs.prod c j
        (mrIndex cs t') (fun m => by simp [combos_length]) hj (mrIndex_lt hv)]
      rw [List.get?_map, ih hv]
      rfl

theorem parseGo_nil (i : Nat) (acc : List OptionValue) :
    parseGo [] i acc = acc.reverse := by
  rw [parseGo]
  simp

theorem parseGo_cons (cs : List Char) (h : ¬ cs = []) (i : Nat)
    (acc : List OptionValue) :
    parseGo cs i acc =
      parseGo ((cs.dropWhile (fun c => c != ',')).tail) (i + 1)
        (if i % 2 = 1
         then setIname acc (String.mk (cs.takeWhile (fun c => c != ',')))
         else ⟨String.mk (cs.takeWhile (fun c => c != ',')), none⟩ :: acc) := by
  rw [parseGo]
  simp [h]

theorem splitOnComma_ne_nil (cs : List Char) : splitOnComma cs ≠ [] := by
  match cs with
  | [] => simp [splitOnComma]
  | c :: cs' =>
    rw [splitOnComma]
    by_cases h : c = ','
    · simp [h]
    · cases h2 : splitOnComma cs' with
      | nil => simp [h, h2]
      | cons f fs => simp [h, h2]

theorem splitOnComma_decomp (cs : List Char) :
    splitOnComma cs =
      cs.takeWhile (fun c => c != ',')
        :: (match cs.dropWhile (fun c => c != ',') with
            | [] => ([] : List (List Char))
            | _ :: r => splitOnComma r) := by
  induction cs with
  | nil => simp [splitOnComma]
  | cons c cs' ih =>
    by_cases h : c = ','
    · subst h
      rw [splitOnComma]
      simp [List.takeWhile_cons, List.dropWhile_cons]
    · rw [splitOnComma]
      rw [List.takeWhile_cons, List.dropWhile_cons]
      have hb : (c != ',') = true := by simp [h]
      rw [ih]
      simp [h]

theorem dropWhile_head_false {α : Type} {p : α → Bool} :
    ∀ {l : List α} {x : α} {xs : List α}, l.dropWhile p = x :: xs → p x = false := by
  intro l
  induction l with
  | nil => intro x xs h; simp [List.dropWhile] at h
  | cons a l ih =>
    intro x xs h
    rw [List.dropWhile_cons] at h
    by_cases hp : p a
    · exact ih (by simpa [hp] using h)
    · simp [hp] at h
      obtain ⟨rfl, -⟩ := h
      simpa using hp

theorem dropTrailingNil_cons {x : List Char} {l : List (List Char)}
    (h : l ≠ []) :
    dropTrailingNil (x :: l) = x :: dropTrailingNil l := by
  unfold dropTrailingNil
  cases l with
  | nil => exact absurd rfl h
  | cons y ys =>
    rw [List.getLast?_cons_cons]
    by_cases hlast : (y :: ys).getLast? = some []
    · simp [hlast, List.dropLast_cons_of_ne_nil]
    · simp [hlast]

/-- The `getsubopt` loop computes the pairing of the comma-split field
sequence, with a trailing empty field dropped. -/
theorem parseGo_eq (cs : List Char) (i : Nat) (acc : List OptionValue) :
    parseGo cs i acc
      = pairGo ((dropTrailingNil (splitOnComma cs)).map String.mk) i acc := by
  suffices H : ∀ (n : Nat) (cs : List Char), cs.length ≤ n →
      ∀ (i : Nat) (acc : List OptionValue),
      parseGo cs i acc
        = pairGo ((dropTrailingNil (splitOnComma cs)).map String.mk) i acc from
    H cs.length cs le_rfl i acc
  intro n
  induction n with
  | zero =>
    intro cs hcs i acc
    have h : cs = [] := List.eq_nil_of_length_eq_zero (by omega)
    subst h
    simp [parseGo_nil, splitOnComma, dropTrailingNil, pairGo]
  | succ n ih =>
    intro cs hcs i acc
    by_cases h : cs = []
    · subst h
      simp [parseGo_nil, splitOnComma, dropTrailingNil, pairGo]
    · rw [parseGo_cons cs h, splitOnComma_decomp cs]
      cases hrest : cs.dropWhile (fun c => c != ',') with
      | nil =>
        have hfield : cs.takeWhile (fun c => c != ',') = cs := by
          have := List.takeWhile_append_dropWhile (fun c => c != ',') cs
          rw [hrest, List.append_nil] at this
          exact this
        have hne : cs.takeWhile (fun c => c != ',') ≠ [] := by
          rw [hfield]; exact h
        rw [show dropTrailingNil [cs.takeWhile (fun c => c != ',')]
            = [cs.takeWhile (fun c => c != ',')] by
          unfold dropTrailingNil
          simp [hne]]
        simp only [List.map_cons, List.map_nil, List.tail_nil]
        rw [pairGo, pairGo, parseGo_nil]
      | cons c r =>
        have hc : c = ',' := by
          have := dropWhile_head_false hrest
          simpa using this
        have hlen : r.length ≤ n := by
          have h1 : (cs.takeWhile (fun c => c != ',')).length
              + (cs.dropWhile (fun c => c != ',')).length = cs.length := by
            rw [← List.length_append, List.takeWhile_append_dropWhile]
          rw [hrest] at h1
          simp only [List.length_cons] at h1
          omega
        rw [dropTrailingNil_cons
          (by exact fun hh => splitOnComma_ne_nil r hh)]
        simp only [List.map_cons, List.tail_cons]
        rw [pairGo]
        exact ih r hlen (i + 1) _

theorem pairGo_even : ∀ (fs : List String) (i : Nat), i % 2 = 0 →
    ∀ acc, pairGo fs i acc = acc.reverse ++ pairFields fs
  | [], i, _, acc => by simp [pairGo, pairFields]
  | [f], i, hi, acc => by
    rw [pairGo, if_neg (by omega), pairGo]
    simp [pairFields]
  | f :: g :: rest, i, hi, acc => by
    rw [pairGo, if_neg (by omega), pairGo, if_pos (by omega)]
    rw [pairGo_even rest (i + 2) (by omega)]
    simp [setIname, pairFields]

/-- `parseOptionSpec`, characterised over the field sequence. -/
theorem parseOptionSpec_eq (raw : String) :
    parseOptionSpec raw
      = ⟨pairFields ((dropTrailingNil (splitOnComma raw.data)).map String.mk)⟩ := by
  unfold parseOptionSpec
  rw [parseGo_eq, pairGo_even _ 0 rfl]
  rfl

theorem strLength_eq_zero {s : String} : s.length = 0 ↔ s = "" := by
  constructor
  · intro h
    apply String.ext
    show s.data = "".data
    have hd : s.data.length = 0 := h
    rw [List.eq_nil_of_length_eq_zero hd]
  · rintro rfl
    rfl

theorem strConcat_nil : strConcat [] = "" := rfl

theorem strConcat_cons (s : String) (l : List String) :
    strConcat (s :: l) = s ++ strConcat l := rfl

theorem strConcat_append (l1 l2 : List String) :
    strConcat (l1 ++ l2) = strConcat l1 ++ strConcat l2 := by
  induction l1 with
  | nil => simp [strConcat_nil, List.nil_append, String.empty_append]
  | cons s l ih =>
    simp only [List.cons_append, strConcat_cons, ih, String.append_assoc]

theorem joinSpaced_cons (s : String) (rest : List String) :
    joinSpaced (s :: rest) = s ++ strConcat (rest.map (fun t => " " ++ t)) := by
  induction rest generalizing s with
  | nil => simp [joinSpaced, strConcat_nil, String.append_empty]
  | cons t r ih =>
    show s ++ " " ++ joinSpaced (t :: r) = _
    rw [ih t]
    simp only [List.map_cons, strConcat_cons, String.append_assoc]

theorem concat_if_fname (sel : List OptionValue) :
    strConcat (sel.map (fun v =>
        if v.fname.length != 0 then " " ++ v.fname else ""))
      = strConcat (((sel.map (fun v => v.fname)).filter
          (fun s => s != "")).map (fun s => " " ++ s)) := by
  induction sel with
  | nil => rfl
  | cons v rest ih =>
    by_cases h : v.fname = ""
    · simp only [List.map_cons, List.filter_cons]
      simp [h, strConcat_cons, String.empty_append]
      simpa using ih
    · have hlz : ¬ v.fname.length = 0 := fun hz => h (strLength_eq_zero.mp hz)
      simp only [List.map_cons, List.filter_cons]
      simp [h, hlz, strConcat_cons]
      have ih' := ih
      simp at ih'
      rw [ih']

theorem concat_if_iname (sel : List OptionValue) :
    strConcat (sel.map (fun v =>
        if inameNonempty v then "_" ++ inameStr v else ""))
      = strConcat (fileSegments sel) := by
  unfold fileSegments
  induction sel with
  | nil => rfl
  | cons v rest ih =>
    cases hv : v.iname with
    | none =>
      have h1 : inameNonempty v = false := by simp [inameNonempty, hv]
      have h2 : inameStr v = "" := by simp [inameStr, hv]
      simp [h1, h2, strConcat_cons, ih, String.empty_append]
    | some s =>
      have h2 : inameStr v = s := by simp [inameStr, hv]
      by_cases hs : s = ""
      · have h1 : inameNonempty v = false := by simp [inameNonempty, hv, hs]
        simp [h1, h2, hs, strConcat_cons, ih, String.empty_append]
      · have hlz : ¬ s.length = 0 := fun hz => hs (strLength_eq_zero.mp hz)
        have h1 : inameNonempty v = true := by simp [inameNonempty, hv, hlz]
        simp [h1, h2, hs, strConcat_cons, ih]

/-- The command buffer contents coincide with the single-space join of
the spec's token list. -/
theorem buildCmd_eq_joinSpaced (cfg : Config) (sel : List OptionValue)
    (args : List String) :
    buildCmd cfg sel args = joinSpaced (cmdTokens cfg sel args) := by
  have htok : cmdTokens cfg sel args
      = cfg.backend :: (((sel.map (fun v => v.fname)).filter (fun s => s != ""))
          ++ ((match cfg.outfile_base with
               | some _ => ["-o", buildFile cfg sel]
               | none => ([] : List String)) ++ args)) := by
    unfold cmdTokens
    simp [List.append_assoc]
  rw [htok, joinSpaced_cons]
  rw [List.map_append, List.map_append, strConcat_append, strConcat_append]
  unfold buildCmd
  rw [concat_if_fname]
  have hB : (match cfg.outfile_base with
      | some _ => " -o " ++ buildFile cfg sel
      | none => "")
      = strConcat ((match cfg.outfile_base with
          | some _ => ["-o", buildFile cfg sel]
          | none => ([] : List String)).map (fun t => " " ++ t)) := by
    cases cfg.outfile_base with
    | none => rfl
    | some base =>
      show " -o " ++ buildFile cfg sel
          = (" " ++ "-o") ++ ((" " ++ buildFile cfg sel) ++ "")
      rw [String.append_empty, ← String.append_assoc]
      rfl
  rw [hB]
  simp [String.append_assoc]

/-- The filename buffer contents coincide with the spec's description:
base, underscore-joined non-empty informal segments, dot-extension. -/
theorem buildFile_eq_segments (cfg : Config) (sel : List OptionValue)
    (base : String) (hbase : cfg.outfile_base = some base) :
    buildFile cfg sel
      = base ++ strConcat (fileSegments sel)
          ++ (match cfg.extension with
              | some e => "." ++ e
              | none => "") := by
  unfold buildFile
  rw [hbase]
  rw [concat_if_iname]

/-! ## Bridge lemmas -/

theorem selectVals_cons (o : COption) (rest : List COption) (j : Nat)
    (t : List Nat) :
    selectVals (o :: rest) (j :: t)
      = o.values.getD j ⟨"", none⟩ :: selectVals rest t := rfl

theorem flatMap_range_getD {α β : Type} (d : α) :
    ∀ (l : List α) (g : α → List β),
      (List.range l.length).flatMap (fun j => g (l.getD j d)) = l.flatMap g := by
  intro l
  induction l with
  | nil => intro g; rfl
  | cons a l ih =>
    intro g
    rw [List.length_cons, List.range_succ_eq_map, List.flatMap_cons,
      List.flatMap_map]
    simp only [List.getD_cons_zero, List.getD_cons_succ]
    rw [ih (fun x => g x), List.flatMap_cons]

/-- `doTheJob` renders exactly the command of each selection tuple, in
`combos` order. -/
theorem doTheJob_eq_combos (cfg : Config) (args : List String) :
    ∀ (opts : List COption) (acc : List OptionValue),
      doTheJob cfg args opts acc
        = (combos (opts.map (fun o => o.values.length))).map
            (fun t => buildCmd cfg (acc ++ selectVals opts t) args) := by
  intro opts
  induction opts with
  | nil =>
    intro acc
    simp [doTheJob, combos, selectVals]
  | cons o rest ih =>
    intro acc
    show o.values.flatMap (fun v => doTheJob cfg args rest (acc ++ [v])) = _
    rw [List.map_cons, combos, List.map_flatMap]
    simp only [List.map_map, Function.comp_def, selectVals_cons]
    rw [← flatMap_range_getD ⟨"", none⟩ o.values
      (fun v => doTheJob cfg args rest (acc ++ [v]))]
    apply congrArg
    funext j
    show doTheJob cfg args rest (acc ++ [o.values.getD j ⟨"", none⟩]) = _
    rw [ih (acc ++ [o.values.getD j ⟨"", none⟩])]
    have hf : (fun t => buildCmd cfg
          ((acc ++ [o.values.getD j ⟨"", none⟩]) ++ selectVals rest t) args)
        = (fun t => buildCmd cfg
            (acc ++ (o.values.getD j ⟨"", none⟩ :: selectVals rest t)) args) := by
      funext t
      rw [List.append_assoc]
      rfl
    rw [hf]

/-- The event trace of `runCombos`: per rendered command, its log line
followed by its invocation — and nothing of the backend's statuses. -/
theorem runCombos_trace {σ : Type} (cfg : Config) (args : List String)
    (backend : String → σ → Int × σ) :
    ∀ (opts : List COption) (acc : List OptionValue) (s : σ),
      (runCombos cfg args backend opts acc s).1
        = (doTheJob cfg args opts acc).flatMap
            (fun cmd => [Event.log ("Executing... " ++ cmd), Event.invoke cmd]) := by
  intro opts
  induction opts with
  | nil =>
    intro acc s
    simp [runCombos, doTheJob]
  | cons o rest ih =>
    intro acc s
    have aux : ∀ (l : List OptionValue) (p : List Event × σ),
        (l.foldl (fun (p : List Event × σ) v =>
          let q := runCombos cfg args backend rest (acc ++ [v]) p.2
          (p.1 ++ q.1, q.2)) p).1
        = p.1 ++ l.flatMap (fun v =>
            (doTheJob cfg args rest (acc ++ [v])).flatMap
              (fun cmd => [Event.log ("Executing... " ++ cmd),
                Event.invoke cmd])) := by
      intro l
      induction l generalizing acc with
      | nil => intro p; simp
      | cons v vs ihl =>
        intro p
        rw [List.foldl_cons, List.flatMap_cons]
        rw [ihl]
        simp [ih (acc ++ [v]), List.append_assoc]
    show ((o.values.foldl (fun (p : List Event × σ) v =>
        let q := runCombos cfg args backend rest (acc ++ [v]) p.2
        (p.1 ++ q.1, q.2)) ([], s)).1) = _
    rw [aux o.values ([], s)]
    show _ = (o.values.flatMap
        (fun v => doTheJob cfg args rest (acc ++ [v]))).flatMap _
    rw [List.flatMap_assoc]
    simp

theorem getLast?_cons_or {α : Type} (a : α) (l : List α) (d : Option α) :
    ((a :: l).getLast?).or d = (l.getLast?).or (some a) := by
  cases l with
  | nil => rfl
  | cons x xs =>
    rw [List.getLast?_cons_cons]
    cases h : (x :: xs).getLast? with
    | none => simp at h
    | some z => rfl

theorem getLast?_cons_getD {α : Type} (a d : α) (l : List α) :
    ((a :: l).getLast?).getD d = (l.getLast?).getD a := by
  cases l with
  | nil => rfl
  | cons x xs =>
    rw [List.getLast?_cons_cons]
    cases h : (x :: xs).getLast? with
    | none => simp at h
    | some z => rfl

/-- The four scalar flag assignments in `parse_input`'s `switch` are
plain overwrites of the globals: after a completed parse, each scalar
is its last supplied operand, else its initial value. -/
theorem parse_scalars (prog : String) :
    ∀ (events : List GetoptEv) (cfg0 cfg : Config),
      parse_input prog cfg0 events = ParseResult.parsed cfg →
      cfg.outfile_base = ((events.filterMap bArg).getLast?).or cfg0.outfile_base
      ∧ cfg.backend = ((events.filterMap xArg).getLast?).getD cfg0.backend
      ∧ cfg.logfile = ((events.filterMap lArg).getLast?).or cfg0.logfile
      ∧ cfg.extension = ((events.filterMap eArg).getLast?).or cfg0.extension := by
  intro events
  induction events with
  | nil =>
    intro cfg0 cfg h
    have hc : cfg0 = cfg := by simpa [parse_input] using h
    subst hc
    simp
  | cons e es ih =>
    intro cfg0 cfg h
    cases e with
    | flagV => simp [parse_input] at h
    | flagH => simp [parse_input] at h
    | unknownOpt c => simp [parse_input] at h
    | missingOperand c => simp [parse_input] at h
    | flagB a =>
      have h' : parse_input prog { cfg0 with outfile_base := some a } es
          = ParseResult.parsed cfg := by simpa [parse_input] using h
      obtain ⟨h1, h2, h3, h4⟩ := ih _ cfg h'
      refine ⟨?_, ?_, ?_, ?_⟩
      · simp only [List.filterMap_cons, bArg]
        rw [getLast?_cons_or]
        simpa using h1
      · simpa [List.filterMap_cons, xArg] using h2
      · simpa [List.filterMap_cons, lArg] using h3
      · simpa [List.filterMap_cons, eArg] using h4
    | flagX a =>
      have h' : parse_input prog { cfg0 with backend := a } es
          = ParseResult.parsed cfg := by simpa [parse_input] using h
      obtain ⟨h1, h2, h3, h4⟩ := ih _ cfg h'
      refine ⟨?_, ?_, ?_, ?_⟩
      · simpa [List.filterMap_cons, bArg] using h1
      · simp only [List.filterMap_cons, xArg]
        rw [getLast?_cons_getD]
        simpa using h2
      · simpa [List.filterMap_cons, lArg] using h3
      · simpa [List.filterMap_cons, eArg] using h4
    | flagL a =>
      have h' : parse_input prog { cfg0 with logfile := some a } es
          = ParseResult.parsed cfg := by simpa [parse_input] using h
      obtain ⟨h1, h2, h3, h4⟩ := ih _ cfg h'
      refine ⟨?_, ?_, ?_, ?_⟩
      · simpa [List.filterMap_cons, bArg] using h1
      · simpa [List.filterMap_cons, xArg] using h2
      · simp only [List.filterMap_cons, lArg]
        rw [getLast?_cons_or]
        simpa using h3
      · simpa [List.filterMap_cons, eArg] using h4
    | flagE a =>
      have h' : parse_input prog { cfg0 with extension := some a } es
          = ParseResult.parsed cfg := by simpa [parse_input] using h
      obtain ⟨h1, h2, h3, h4⟩ := ih _ cfg h'
      refine ⟨?_, ?_, ?_, ?_⟩
      · simpa [List.filterMap_cons, bArg] using h1
      · simpa [List.filterMap_cons, xArg] using h2
      · simpa [List.filterMap_cons, lArg] using h3
      · simp only [List.filterMap_cons, eArg]
        rw [getLast?_cons_or]
        simpa using h4
    | flagO a =>
      have h' : parse_input prog
          { cfg0 with options := cfg0.options ++ [parseOptionSpec a] } es
          = ParseResult.parsed cfg := by simpa [parse_input] using h
      obtain ⟨h1, h2, h3, h4⟩ := ih _ cfg h'
      exact ⟨by simpa [List.filterMap_cons, bArg] using h1,
        by simpa [List.filterMap_cons, xArg] using h2,
        by simpa [List.filterMap_cons, lArg] using h3,
        by simpa [List.filterMap_cons, eArg] using h4⟩

/-- Parsing runs every non-exiting event and then `-h` exits with the
usage text and success, whatever came before or after. -/
theorem parse_nonExiting_flagH (prog : String) :
    ∀ (es : List GetoptEv) (cfg0 : Config) (rest : List GetoptEv),
      (∀ e ∈ es, e.nonExiting = true) →
      parse_input prog cfg0 (es ++ GetoptEv.flagH :: rest)
        = ParseResult.exited (helpText prog) EXIT_SUCCESS := by
  intro es
  induction es with
  | nil =>
    intro cfg0 rest _
    rfl
  | cons e es ih =>
    intro cfg0 rest hall
    have he := hall e (by simp)
    have hes : ∀ x ∈ es, x.nonExiting = true := fun x hx => hall x (by simp [hx])
    cases e with
    | flagV => simp [GetoptEv.nonExiting] at he
    | flagH => simp [GetoptEv.nonExiting] at he
    | unknownOpt c => simp [GetoptEv.nonExiting] at he
    | missingOperand c => simp [GetoptEv.nonExiting] at he
    | flagB a =>
      rw [List.cons_append]
      show parse_input prog { cfg0 with outfile_base := some a }
        (es ++ GetoptEv.flagH :: rest) = _
      exact ih _ rest hes
    | flagX a =>
      rw [List.cons_append]
      show parse_input prog { cfg0 with backend := a }
        (es ++ GetoptEv.flagH :: rest) = _
      exact ih _ rest hes
    | flagL a =>
      rw [List.cons_append]
      show parse_input prog { cfg0 with logfile := some a }
        (es ++ GetoptEv.flagH :: rest) = _
      exact ih _ rest hes
    | flagE a =>
      rw [List.cons_append]
      show parse_input prog { cfg0 with extension := some a }
        (es ++ GetoptEv.flagH :: rest) = _
      exact ih _ rest hes
    | flagO a =>
      rw [List.cons_append]
      show parse_input prog
        { cfg0 with options := cfg0.options ++ [parseOptionSpec a] }
        (es ++ GetoptEv.flagH :: rest) = _
      exact ih _ rest hes

theorem parseOptionSpec_empty : parseOptionSpec "" = COption.mk [] := by
  unfold parseOptionSpec
  rw [show ("".data : List Char) = [] from rfl, parseGo_nil]
  rfl

/-- An option with zero declared values annihilates the product. -/
theorem combos_of_zero_mem {counts : List Nat} (h : 0 ∈ counts) :
    combos counts = [] :=
  List.eq_nil_of_length_eq_zero
    (by rw [combos_length]; exact List.prod_eq_zero h)

theorem vsnprintf_snd (buf : List Char) (ind n : Nat) (s : List Char) :
    (vsnprintfModel buf ind n s).2 = s.length := by
  unfold vsnprintfModel
  split <;> rfl

theorem vsnprintf_fst_fits (buf : List Char) (ind n : Nat) (s : List Char)
    (h : s.length + 1 ≤ n) :
    (vsnprintfModel buf ind n s).1 = overwrite buf ind (s ++ [nulChar]) := by
  unfold vsnprintfModel
  rw [if_neg (by omega : ¬ n = 0)]
  rw [List.take_of_length_le (by omega : s.length ≤ n - 1)]

theorem str_write_eq (buf : List Char) (ind n : Nat) (s : List Char) :
    str_write buf ind n s
      = if s.length ≥ n
        then Except.error "Attempt to buffer overflow encountered"
        else Except.ok ((vsnprintfModel buf ind n s).1, ind + s.length) := by
  show (if (vsnprintfModel buf ind n s).2 ≥ n
      then Except.error "Attempt to buffer overflow encountered"
      else Except.ok ((vsnprintfModel buf ind n s).1,
        ind + (vsnprintfModel buf ind n s).2)) = _
  rw [vsnprintf_snd]

theorem vsnprintf_length (buf : List Char) (ind n : Nat) (s : List Char)
    (h : ind + n ≤ buf.length) :
    (vsnprintfModel buf ind n s).1.length = buf.length := by
  unfold vsnprintfModel
  split
  · rfl
  next hn =>
    unfold overwrite
    simp only [List.length_append, List.length_take, List.length_drop,
      List.length_cons, List.length_nil]
    omega

theorem vsnprintf_untouched (buf : List Char) (ind n : Nat) (s : List Char)
    (h : ind + n ≤ buf.length) (k : Nat) (d : Char)
    (hk : k < ind ∨ ind + n ≤ k) :
    (vsnprintfModel buf ind n s).1.getD k d = buf.getD k d := by
  unfold vsnprintfModel
  split
  · rfl
  next hn =>
    unfold overwrite
    set w : List Char := s.take (n - 1) ++ [nulChar] with hwdef
    have hwlen : w.length ≤ n := by
      rw [hwdef]
      simp only [List.length_append, List.length_take, List.length_cons,
        List.length_nil]
      omega
    have htake : (buf.take ind).length = ind := by
      rw [List.length_take]
      omega
    rw [List.getD_eq_getElem?_getD, List.getD_eq_getElem?_getD]
    rcases hk with hk | hk
    · have h1 : k < (buf.take ind ++ w).length := by
        rw [List.length_append, htake]
        omega
      have h2 : k < (buf.take ind).length := by
        rw [htake]
        exact hk
      rw [List.getElem?_append_left h1, List.getElem?_append_left h2,
        List.getElem?_take_of_lt hk]
    · have h2 : (buf.take ind ++ w).length ≤ k := by
        rw [List.length_append, htake]
        omega
      rw [List.getElem?_append_right h2]
      have hsub : k - (buf.take ind ++ w).length = k - (ind + w.length) := by
        rw [List.length_append, htake]
      rw [hsub, List.getElem?_drop]
      have harith : ind + w.length + (k - (ind + w.length)) = k := by omega
      rw [harith]

theorem vsnprintf_nul (buf : List Char) (ind n : Nat) (s : List Char)
    (h : ind + n ≤ buf.length) (hfit : s.length + 1 ≤ n) (d : Char) :
    (vsnprintfModel buf ind n s).1.getD (ind + s.length) d = nulChar := by
  rw [vsnprintf_fst_fits buf ind n s hfit]
  unfold overwrite
  have htake : (buf.take ind).length = ind := by
    rw [List.length_take]
    omega
  rw [List.getD_eq_getElem?_getD]
  have h1 : ind + s.length < (buf.take ind ++ (s ++ [nulChar])).length := by
    rw [List.length_append, htake, List.length_append]
    simp only [List.length_cons, List.length_nil]
    omega
  have h2 : (buf.take ind).length ≤ ind + s.length := by
    rw [htake]
    omega
  rw [List.getElem?_append_left h1, List.getElem?_append_right h2, htake]
  have hidx : ind + s.length - ind = s.length := by omega
  rw [hidx]
  rw [List.getElem?_append_right (Nat.le_refl s.length)]
  simp

theorem countP_invoke_blocks : ∀ l : List String,
    (l.flatMap (fun cmd => [Event.log ("Executing... " ++ cmd),
        Event.invoke cmd])).countP Event.isInvoke = l.length := by
  intro l
  induction l with
  | nil => rfl
  | cons c l ih =>
    rw [List.flatMap_cons, List.countP_append, ih,
      show List.countP Event.isInvoke
        [Event.log ("Executing... " ++ c), Event.invoke c] = 1 from rfl]
    rw [List.length_cons, Nat.add_comm]

/-! ## The claims -/

/-- **C1.**  For every list of Options with value counts `c1..cn`
(`n ≥ 0`), the expansion produces exactly `c1*c2*...*cn` selection
tuples, pairwise distinct, covering every valid tuple exactly once; for
an empty option list exactly one (empty) combination is produced and
exactly one backend invocation occurs. -/
theorem C1_cartesian_completeness :
    (∀ counts : List Nat,
        (combos counts).length = counts.prod
        ∧ (combos counts).Nodup
        ∧ (∀ t : List Nat, t ∈ combos counts ↔ validTuple counts t))
    ∧ combos [] = [[]]
    ∧ (∀ (σ : Type) (cfg : Config) (args : List String)
        (backend : String → σ → Int × σ) (s : σ),
        cfg.options = [] →
        ((runCombos cfg args backend cfg.options [] s).1.countP
          Event.isInvoke) = 1) := by
  refine ⟨fun counts => ⟨combos_length counts, combos_nodup counts,
    fun t => mem_combos_iff counts t⟩, rfl, ?_⟩
  intro σ cfg args backend s h
  rw [h, runCombos_trace, countP_invoke_blocks]
  rfl

/-- Witness for C1 at counts `[2, 3]` and an empty option list. -/
theorem C1_witness :
    ((combos [2, 3]).length = [2, 3].prod)
    ∧ (({} : Config).options = [])
    ∧ ((runCombos ({} : Config) [] (fun _ (s : Unit) => (0, s))
        ({} : Config).options [] ()).1.countP Event.isInvoke) = 1 :=
  ⟨(C1_cartesian_completeness.1 [2, 3]).1, rfl,
    C1_cartesian_completeness.2.2 Unit ({} : Config) []
      (fun _ s => (0, s)) () rfl⟩

/-- **C2.**  Enumeration is a pure function of the input (hence two
runs with identical input produce identical order), the commands follow
the `combos` tuple order, and a valid tuple `t` occurs exactly at its
mixed-radix rank: axis 0 varies slowest, axis `n-1` varies fastest. -/
theorem C2_enumeration_order :
    (∀ (cfg : Config) (args : List String),
        doTheJob cfg args cfg.options []
          = (combos (cfg.options.map (fun o => o.values.length))).map
              (fun t => buildCmd cfg (selectVals cfg.options t) args))
    ∧ (∀ (counts t : List Nat), validTuple counts t →
        (combos counts).length = counts.prod
        ∧ (combos counts).get? (mrIndex counts t) = some t) :=
  ⟨fun cfg args => doTheJob_eq_combos cfg args cfg.options [],
    fun counts t h => ⟨combos_length counts, combos_get_mrIndex h⟩⟩

/-- Witness for C2: tuple `[1, 0]` of counts `[2, 2]` sits at rank 2. -/
theorem C2_witness :
    validTuple [2, 2] [1, 0]
    ∧ ((combos [2, 2]).length = [2, 2].prod
        ∧ (combos [2, 2]).get? (mrIndex [2, 2] [1, 0]) = some [1, 0]) :=
  ⟨by decide, C2_enumeration_order.2 [2, 2] [1, 0] (by decide)⟩

/-- **C3.**  The rendered command is the single-space join of: backend;
the non-empty formal names in axis order; `-o` and the filename iff
`outfile_base` is set; then the positional arguments verbatim.  With no
base name no `-o`/filename piece is inserted. -/
theorem C3_command_rendering :
    ∀ (cfg : Config) (sel : List OptionValue) (args : List String),
      buildCmd cfg sel args = joinSpaced (cmdTokens cfg sel args)
      ∧ (cfg.outfile_base = none →
          buildCmd cfg sel args
            = joinSpaced ([cfg.backend]
                ++ (sel.map (fun v => v.fname)).filter (fun s => s != "")
                ++ args)) := by
  intro cfg sel args
  refine ⟨buildCmd_eq_joinSpaced cfg sel args, ?_⟩
  intro h
  rw [buildCmd_eq_joinSpaced cfg sel args]
  unfold cmdTokens
  rw [h]
  simp

/-- Witness for C3 on a configured run and on a base-less run. -/
theorem C3_witness :
    (buildCmd { outfile_base := some "source", extension := some "o" }
        [⟨"-g", some "debug"⟩, ⟨"", some "nodebug"⟩] ["source.c"]
      = joinSpaced (cmdTokens
          { outfile_base := some "source", extension := some "o" }
          [⟨"-g", some "debug"⟩, ⟨"", some "nodebug"⟩] ["source.c"]))
    ∧ (({} : Config).outfile_base = none)
    ∧ (buildCmd ({} : Config) [⟨"-c", none⟩] ["a.c"]
        = joinSpaced (["cc"]
            ++ ([⟨"-c", none⟩].map (fun v : OptionValue => v.fname)).filter
                (fun s => s != "")
            ++ ["a.c"])) :=
  ⟨(C3_command_rendering _ _ _).1, rfl,
    (C3_command_rendering ({} : Config) [⟨"-c", none⟩] ["a.c"]).2 rfl⟩

/-- **C4.**  With `outfile_base = base`, the filename is `base`, then
one `"_" ++ informalName` segment per selected value whose informal
name is non-empty (empty ones add neither segment nor separator), then
`"." ++ extension` when an extension is configured. -/
theorem C4_filename_rendering :
    ∀ (cfg : Config) (sel : List OptionValue) (base : String),
      cfg.outfile_base = some base →
      buildFile cfg sel
        = base ++ strConcat (fileSegments sel)
            ++ (match cfg.extension with
                | some e => "." ++ e
                | none => "") :=
  fun cfg sel base h => buildFile_eq_segments cfg sel base h

/-- Witness for C4, with one missing and one explicitly empty informal
name in the middle contributing nothing. -/
theorem C4_witness :
    (({ outfile_base := some "source", extension := some "o" } :
        Config).outfile_base = some "source")
    ∧ (buildFile { outfile_base := some "source", extension := some "o" }
        [⟨"-c", none⟩, ⟨"-g", some "debug"⟩, ⟨"", some ""⟩,
          ⟨"-m32", some "32"⟩]
      = "source" ++ strConcat (fileSegments
          [⟨"-c", none⟩, ⟨"-g", some "debug"⟩, ⟨"", some ""⟩,
            ⟨"-m32", some "32"⟩]) ++ ("." ++ "o"))
    ∧ (buildFile { outfile_base := some "source", extension := some "o" }
        [⟨"-c", none⟩, ⟨"-g", some "debug"⟩, ⟨"", some ""⟩,
          ⟨"-m32", some "32"⟩]
      = "source_debug_32.o") :=
  ⟨rfl,
    C4_filename_rendering
      { outfile_base := some "source", extension := some "o" }
      [⟨"-c", none⟩, ⟨"-g", some "debug"⟩, ⟨"", some ""⟩,
        ⟨"-m32", some "32"⟩] "source" rfl,
    by decide⟩

/-- **C5 (counterexample).**  On the raw spec `"a,b,"` the `getsubopt`
loop yields one value `(a, b)`, whereas pairing the plain comma-split
field sequence `["a", "b", ""]` would yield a second value with empty
formal name: the claim's "splits on commas" reading is false for
trailing commas. -/
theorem C5_counterexample :
    parseOptionSpec "a,b," = COption.mk [⟨"a", some "b"⟩]
    ∧ pairFields ((splitOnComma ("a,b,").data).map String.mk)
        = [⟨"a", some "b"⟩, ⟨"", none⟩]
    ∧ parseOptionSpec "a,b,"
        ≠ COption.mk (pairFields
            ((splitOnComma ("a,b,").data).map String.mk)) := by
  refine ⟨?_, by decide, ?_⟩
  · rw [parseOptionSpec_eq]
    decide
  · rw [parseOptionSpec_eq]
    decide

/-- **C5 (amended).**  Parsing splits the raw string on commas — except
that a trailing comma terminates the field list without contributing a
final empty field — and consumes fields two at a time: field `2k` is
value `k`'s formal name, field `2k+1`, if present, its informal name;
with an odd field count the last informal name is left absent (`NULL`),
which the renderers treat identically to an explicitly empty one. -/
theorem C5_spec_parsing :
    ∀ raw : String,
      parseOptionSpec raw
        = COption.mk (pairFields
            ((dropTrailingNil (splitOnComma raw.data)).map String.mk))
      ∧ (∀ (cfg : Config) (pre post : List OptionValue) (f : String)
          (args : List String),
          buildCmd cfg (pre ++ ⟨f, none⟩ :: post) args
            = buildCmd cfg (pre ++ ⟨f, some ""⟩ :: post) args
          ∧ buildFile cfg (pre ++ ⟨f, none⟩ :: post)
            = buildFile cfg (pre ++ ⟨f, some ""⟩ :: post)) := by
  intro raw
  refine ⟨parseOptionSpec_eq raw, ?_⟩
  intro cfg pre post f args
  have hfile : buildFile cfg (pre ++ ⟨f, none⟩ :: post)
      = buildFile cfg (pre ++ ⟨f, some ""⟩ :: post) := by
    unfold buildFile
    cases cfg.outfile_base with
    | none => rfl
    | some base =>
      simp [List.map_append, List.map_cons, inameNonempty, inameStr]
  refine ⟨?_, hfile⟩
  unfold buildCmd
  rw [hfile]
  simp [List.map_append, List.map_cons]

/-- **C6 (counterexample).**  `-o ""` is not rejected: `parse_input`
returns a parsed configuration whose option has zero values, the run
makes zero backend invocations, and the process exits with success —
there is no `MalformedSpec`-style failure anywhere in the code. -/
theorem C6_counterexample :
    parse_input "ccgen" {} [GetoptEv.flagO ""]
        = ParseResult.parsed { options := [COption.mk []] }
    ∧ ccgenMain "ccgen" ["-o", ""] [GetoptEv.flagO ""] []
        (fun _ (s : Unit) => (0, s)) ()
      = ([], EXIT_SUCCESS, ()) := by
  have hp : parse_input "ccgen" {} [GetoptEv.flagO ""]
      = ParseResult.parsed { options := [COption.mk []] } := by
    show ParseResult.parsed { options := [] ++ [parseOptionSpec ""] } = _
    rw [parseOptionSpec_empty]
    rfl
  refine ⟨hp, ?_⟩
  unfold ccgenMain
  rw [if_neg (by decide)]
  rw [hp]
  rfl

/-- **C6 (amended).**  Parsing the empty option-spec string succeeds,
appending an Option with zero values; during expansion such an option
annihilates the Cartesian product, so the run performs no backend
invocation at all and still exits with success. -/
theorem C6_empty_spec_behavior :
    parseOptionSpec "" = COption.mk []
    ∧ (∀ (σ : Type) (prog : String) (argv : List String)
        (events : List GetoptEv) (posArgs : List String)
        (backend : String → σ → Int × σ) (s : σ) (cfg : Config),
        argv ≠ [] →
        parse_input prog {} events = ParseResult.parsed cfg →
        COption.mk [] ∈ cfg.options →
        (ccgenMain prog argv events posArgs backend s).1 = []
        ∧ (ccgenMain prog argv events posArgs backend s).2.1
            = EXIT_SUCCESS) := by
  refine ⟨parseOptionSpec_empty, ?_⟩
  intro σ prog argv events posArgs backend s cfg hargv hp hmem
  have hzero : (0 : Nat) ∈ cfg.options.map (fun o => o.values.length) :=
    List.mem_map.mpr ⟨COption.mk [], hmem, rfl⟩
  have hrun : (runCombos cfg posArgs backend cfg.options [] s).1 = [] := by
    rw [runCombos_trace, doTheJob_eq_combos, combos_of_zero_mem hzero]
    rfl
  unfold ccgenMain
  rw [if_neg (by cases argv with
    | nil => exact absurd rfl hargv
    | cons a l => simp)]
  rw [hp]
  exact ⟨hrun, rfl⟩

/-- Witness for C6 (amended), on `ccgen -o "" x.c`. -/
theorem C6_witness :
    (["x.c"] ≠ ([] : List String))
    ∧ (parse_input "ccgen" {} [GetoptEv.flagO ""]
        = ParseResult.parsed { options := [COption.mk []] })
    ∧ (COption.mk [] ∈ ({ options := [COption.mk []] } : Config).options)
    ∧ ((ccgenMain "ccgen" ["x.c"] [GetoptEv.flagO ""] ["x.c"]
        (fun _ (s : Unit) => (0, s)) ()).1 = []
      ∧ (ccgenMain "ccgen" ["x.c"] [GetoptEv.flagO ""] ["x.c"]
          (fun _ (s : Unit) => (0, s)) ()).2.1 = EXIT_SUCCESS) := by
  have hp : parse_input "ccgen" {} [GetoptEv.flagO ""]
      = ParseResult.parsed { options := [COption.mk []] } := by
    show ParseResult.parsed { options := [] ++ [parseOptionSpec ""] } = _
    rw [parseOptionSpec_empty]
    rfl
  exact ⟨by decide, hp, by decide,
    C6_empty_spec_behavior.2 Unit "ccgen" ["x.c"] [GetoptEv.flagO ""]
      ["x.c"] (fun _ s => (0, s)) () { options := [COption.mk []] }
      (by decide) hp (by decide)⟩

/-- **C7.**  `str_write` fails hard (the `error_exit` diagnostic) as
soon as the formatted text plus terminator exceeds the remaining
capacity `n`, never touches bytes outside the `n`-byte window starting
at `ind`, preserves the buffer length, and on success advances the
index exactly onto the written terminator. -/
theorem C7_str_write_safety :
    ∀ (buf : List Char) (ind n : Nat) (s : List Char),
      ind + n ≤ buf.length →
      ((s.length + 1 ≤ n →
          str_write buf ind n s
            = Except.ok (overwrite buf ind (s ++ [nulChar]), ind + s.length))
      ∧ (n ≤ s.length →
          str_write buf ind n s
            = Except.error "Attempt to buffer overflow encountered")
      ∧ (vsnprintfModel buf ind n s).1.length = buf.length
      ∧ (∀ (k : Nat) (d : Char), k < ind ∨ ind + n ≤ k →
          (vsnprintfModel buf ind n s).1.getD k d = buf.getD k d)
      ∧ (s.length + 1 ≤ n → ∀ d : Char,
          (vsnprintfModel buf ind n s).1.getD (ind + s.length) d
            = nulChar)) := by
  intro buf ind n s h
  refine ⟨?_, ?_, vsnprintf_length buf ind n s h,
    fun k d hk => vsnprintf_untouched buf ind n s h k d hk,
    fun hfit d => vsnprintf_nul buf ind n s h hfit d⟩
  · intro hfit
    rw [str_write_eq, if_neg (by omega), vsnprintf_fst_fits buf ind n s hfit]
  · intro hover
    rw [str_write_eq, if_pos (by omega)]

/-- Witness for C7 at a concrete buffer, index and text. -/
theorem C7_witness :
    (2 + 6 ≤ (List.replicate 10 'x').length)
    ∧ (("abc".data.length + 1 ≤ 6 →
        str_write (List.replicate 10 'x') 2 6 "abc".data
          = Except.ok (overwrite (List.replicate 10 'x') 2
              ("abc".data ++ [nulChar]), 2 + "abc".data.length))
      ∧ (6 ≤ "abc".data.length →
          str_write (List.replicate 10 'x') 2 6 "abc".data
            = Except.error "Attempt to buffer overflow encountered")
      ∧ (vsnprintfModel (List.replicate 10 'x') 2 6 "abc".data).1.length
          = (List.replicate 10 'x').length
      ∧ (∀ (k : Nat) (d : Char), k < 2 ∨ 2 + 6 ≤ k →
          (vsnprintfModel (List.replicate 10 'x') 2 6 "abc".data).1.getD k d
            = (List.replicate 10 'x').getD k d)
      ∧ ("abc".data.length + 1 ≤ 6 → ∀ d : Char,
          (vsnprintfModel (List.replicate 10 'x') 2 6
              "abc".data).1.getD (2 + "abc".data.length) d = nulChar)) :=
  ⟨by decide,
    C7_str_write_safety (List.replicate 10 'x') 2 6 "abc".data (by decide)⟩

/-- **C8.**  Every combination logs `"Executing... " ++ cmd` and then
invokes the backend; the trace — hence which and how many combinations
run — is the same whatever exit statuses the backend returns, the whole
product is attempted, and the process still exits 0. -/
theorem C8_ignore_backend_status :
    ∀ (σ σ' : Type) (cfg : Config) (args : List String)
      (b1 : String → σ → Int × σ) (b2 : String → σ' → Int × σ')
      (s : σ) (s' : σ'),
      (runCombos cfg args b1 cfg.options [] s).1
        = (doTheJob cfg args cfg.options []).flatMap
            (fun cmd => [Event.log ("Executing... " ++ cmd),
              Event.invoke cmd])
      ∧ (runCombos cfg args b1 cfg.options [] s).1
          = (runCombos cfg args b2 cfg.options [] s').1
      ∧ ((runCombos cfg args b1 cfg.options [] s).1.countP Event.isInvoke)
          = (cfg.options.map (fun o => o.values.length)).prod
      ∧ (∀ (prog : String) (argv : List String) (events : List GetoptEv),
          argv ≠ [] →
          parse_input prog {} events = ParseResult.parsed cfg →
          (ccgenMain prog argv events args b1 s).2.1 = EXIT_SUCCESS) := by
  intro σ σ' cfg args b1 b2 s s'
  refine ⟨runCombos_trace cfg args b1 cfg.options [] s, ?_, ?_, ?_⟩
  · rw [runCombos_trace, runCombos_trace]
  · rw [runCombos_trace, countP_invoke_blocks, doTheJob_eq_combos,
      List.length_map, combos_length]
  · intro prog argv events hargv hp
    unfold ccgenMain
    rw [if_neg (by cases argv with
      | nil => exact absurd rfl hargv
      | cons a l => simp)]
    rw [hp]

/-- Witness for C8: one two-valued option, two backends returning
different statuses over different state types. -/
theorem C8_witness :
    ((runCombos { options := [COption.mk [⟨"-a", none⟩, ⟨"-b", none⟩]] }
        ["x.c"] (fun _ (s : Unit) => (0, s))
        ({ options := [COption.mk [⟨"-a", none⟩, ⟨"-b", none⟩]] } :
          Config).options [] ()).1
      = (doTheJob { options := [COption.mk [⟨"-a", none⟩, ⟨"-b", none⟩]] }
          ["x.c"]
          ({ options := [COption.mk [⟨"-a", none⟩, ⟨"-b", none⟩]] } :
            Config).options []).flatMap
          (fun cmd => [Event.log ("Executing... " ++ cmd),
            Event.invoke cmd]))
    ∧ ((runCombos { options := [COption.mk [⟨"-a", none⟩, ⟨"-b", none⟩]] }
        ["x.c"] (fun _ (s : Unit) => (0, s))
        ({ options := [COption.mk [⟨"-a", none⟩, ⟨"-b", none⟩]] } :
          Config).options [] ()).1
      = (runCombos { options := [COption.mk [⟨"-a", none⟩, ⟨"-b", none⟩]] }
          ["x.c"] (fun _ (b : Bool) => (7, b))
          ({ options := [COption.mk [⟨"-a", none⟩, ⟨"-b", none⟩]] } :
            Config).options [] true).1)
    ∧ ((runCombos { options := [COption.mk [⟨"-a", none⟩, ⟨"-b", none⟩]] }
        ["x.c"] (fun _ (s : Unit) => (0, s))
        ({ options := [COption.mk [⟨"-a", none⟩, ⟨"-b", none⟩]] } :
          Config).options [] ()).1.countP Event.isInvoke
      = (({ options := [COption.mk [⟨"-a", none⟩, ⟨"-b", none⟩]] } :
          Config).options.map (fun o => o.values.length)).prod) :=
  ⟨(C8_ignore_backend_status Unit Bool
      { options := [COption.mk [⟨"-a", none⟩, ⟨"-b", none⟩]] } ["x.c"]
      (fun _ s => (0, s)) (fun _ b => (7, b)) () true).1,
    (C8_ignore_backend_status Unit Bool
      { options := [COption.mk [⟨"-a", none⟩, ⟨"-b", none⟩]] } ["x.c"]
      (fun _ s => (0, s)) (fun _ b => (7, b)) () true).2.1,
    (C8_ignore_backend_status Unit Bool
      { options := [COption.mk [⟨"-a", none⟩, ⟨"-b", none⟩]] } ["x.c"]
      (fun _ s => (0, s)) (fun _ b => (7, b)) () true).2.2.1⟩

/-- **C9.**  With no arguments at all (`argc < 2`) the program prints
the usage text and exits with failure, consulting neither the flag
stream nor the backend; `-h` prints the same usage text and exits with
success. -/
theorem C9_no_args_usage :
    ∀ (σ : Type) (prog : String) (events : List GetoptEv)
      (posArgs : List String) (backend : String → σ → Int × σ) (s : σ),
      ccgenMain prog [] events posArgs backend s
        = ([Event.log (helpText prog)], EXIT_FAILURE, s)
      ∧ (∀ (argv : List String) (es esAfter : List GetoptEv), argv ≠ [] →
          (∀ e ∈ es, e.nonExiting = true) →
          ccgenMain prog argv (es ++ GetoptEv.flagH :: esAfter)
              posArgs backend s
            = ([Event.log (helpText prog)], EXIT_SUCCESS, s)) := by
  intro σ prog events posArgs backend s
  constructor
  · rfl
  · intro argv es esAfter hargv hall
    unfold ccgenMain
    rw [if_neg (by cases argv with
      | nil => exact absurd rfl hargv
      | cons a l => simp)]
    rw [parse_nonExiting_flagH prog es {} esAfter hall]

/-- Witness for C9: empty command line versus `-b x -h`. -/
theorem C9_witness :
    (ccgenMain "ccgen" [] [] [] (fun _ (s : Unit) => (0, s)) ()
      = ([Event.log (helpText "ccgen")], EXIT_FAILURE, ()))
    ∧ (["-b", "x", "-h"] ≠ ([] : List String))
    ∧ (∀ e ∈ [GetoptEv.flagB "x"], e.nonExiting = true)
    ∧ (ccgenMain "ccgen" ["-b", "x", "-h"]
        ([GetoptEv.flagB "x"] ++ GetoptEv.flagH :: []) []
        (fun _ (s : Unit) => (0, s)) ()
      = ([Event.log (helpText "ccgen")], EXIT_SUCCESS, ())) :=
  ⟨(C9_no_args_usage Unit "ccgen" [] [] (fun _ s => (0, s)) ()).1,
    by decide, by decide,
    (C9_no_args_usage Unit "ccgen" [] [] (fun _ s => (0, s)) ()).2
      ["-b", "x", "-h"] [GetoptEv.flagB "x"] [] (by decide) (by decide)⟩

/-- **C10.**  When `-b`, `-x`, `-e` or `-l` appears several times, the
`switch` just overwrites the corresponding global, so the last operand
wins, earlier ones are discarded, and no error is reported. -/
theorem C10_last_occurrence_wins :
    ∀ (prog : String) (events : List GetoptEv) (cfg : Config),
      parse_input prog {} events = ParseResult.parsed cfg →
      cfg.outfile_base = (events.filterMap bArg).getLast?
      ∧ cfg.backend = ((events.filterMap xArg).getLast?).getD "cc"
      ∧ cfg.logfile = (events.filterMap lArg).getLast?
      ∧ cfg.extension = (events.filterMap eArg).getLast? := by
  intro prog events cfg h
  obtain ⟨h1, h2, h3, h4⟩ := parse_scalars prog events {} cfg h
  exact ⟨by simpa using h1, by simpa using h2, by simpa using h3,
    by simpa using h4⟩

/-- Witness for C10: each scalar flag given twice; the second operand
ends up in the configuration. -/
theorem C10_witness :
    (parse_input "ccgen" {} twiceScalars = ParseResult.parsed lastWinsConfig)
    ∧ (lastWinsConfig.outfile_base = (twiceScalars.filterMap bArg).getLast?
      ∧ lastWinsConfig.backend
          = ((twiceScalars.filterMap xArg).getLast?).getD "cc"
      ∧ lastWinsConfig.logfile = (twiceScalars.filterMap lArg).getLast?
      ∧ lastWinsConfig.extension = (twiceScalars.filterMap eArg).getLast?) :=
  ⟨by decide,
    C10_last_occurrence_wins "ccgen" twiceScalars lastWinsConfig (by decide)⟩

end Ccgen
